import Mathlib

/-!
Shallow embedding of `src/src/scheduler.rs` (crate `revent_loop`), a
single-process cooperative task scheduler with a ready queue and a
sleeping queue, and proofs of the specification's claims about it.

Modelling conventions:

* Time is measured in nanoseconds as a `Nat`; a Rust `Duration` is its
  total length in nanoseconds, and `Duration::as_secs` is division by
  `10^9` (`durAsSecs`).  `Duration::sub`, which panics on underflow, is
  `durSub`, returning `none` on underflow.
* The model is a deterministic single-threaded abstraction: every
  instruction is instantaneous and only `thread::sleep` advances the
  clock.  In particular `now.elapsed()` evaluated right after
  `let now = Instant::now()` (scheduler.rs lines 80-81) is `0`.
* A Rust callback (`Box<dyn FnOnce()>`) is abstracted by what it does
  that the scheduler can observe: the list of tasks it submits via
  `schedule`, in order, and whether it then panics.  Invoking a callback
  appends the task's id to an instrumentation `log`, then performs its
  `schedule` calls, then panics if its `panics` flag is set.
* Rust panics are `Except.error` / `RunRes.panicked`, carrying the
  scheduler state at the moment of unwinding.
* The run loop is given fuel (`Nat`); exhausted fuel is `RunRes.fuelOut`,
  which makes no statement about the program.
-/

namespace Revent

/-- A task (scheduler.rs lines 8-12): an id, an optional expiry delay
(`expires : Option<Duration>`), and its callback, abstracted as the list
of tasks the callback schedules (`spawns`) plus a panic flag. -/
inductive Task where
  | mk (id : Nat) (expires : Option Nat) (spawns : List Task) (panics : Bool)

/-- The task's id (`Task.id`, a Uuid in the source). -/
def Task.id : Task → Nat
  | .mk i _ _ _ => i

/-- The task's optional delay (`Task.expires`). -/
def Task.expires : Task → Option Nat
  | .mk _ e _ _ => e

/-- The tasks the task's callback submits via `schedule`, in order. -/
def Task.spawns : Task → List Task
  | .mk _ _ sp _ => sp

/-- Whether the task's callback panics (after its `schedule` calls). -/
def Task.panics : Task → Bool
  | .mk _ _ _ p => p

/-- Scheduler state (scheduler.rs lines 30-33): the two `VecDeque`s
(`ready_fns`, `sleeping_fns`, front = head of the list), plus the model
clock in nanoseconds and the instrumentation log of invoked task ids. -/
structure SchedState where
  ready : List Task
  sleeping : List Task
  clock : Nat
  log : List Nat

/-- Nanoseconds per second, for `Duration::as_secs`. -/
def nanosPerSec : Nat := 1000000000

/-- `Duration::as_secs`: whole seconds of a duration given in ns. -/
def durAsSecs (d : Nat) : Nat := d / nanosPerSec

/-- `Duration::sub`: panics (`none`) on underflow. -/
def durSub (a b : Nat) : Option Nat :=
  if b ≤ a then some (a - b) else none

/-- `Scheduler::schedule` (scheduler.rs lines 43-59): a task with
`expires = None` is pushed at the back of `ready_fns`; a task with
`expires = Some _` is pushed at the back of `sleeping_fns` (the source
pushes unsorted, see the `@todo: sort before pushing` comment on
line 54; the reassignment `task.expires = Some(expires)` on line 52 is
a no-op). -/
def schedule (s : SchedState) (t : Task) : SchedState :=
  match t.expires with
  | none => { s with ready := s.ready ++ [t] }
  | some _ => { s with sleeping := s.sleeping ++ [t] }

/-- Invoking a task's callback (`(task.callback)()`, scheduler.rs
line 97): record the invocation in the log, perform the callback's
`schedule` calls in order, then panic (`Except.error`) if the callback
panics. -/
def invokeTask (s : SchedState) (t : Task) : Except SchedState SchedState :=
  let s1 := { s with log := s.log ++ [t.id] }
  let s2 := t.spawns.foldl schedule s1
  if t.panics then .error s2 else .ok s2

/-- The `run_sleeping` closure (scheduler.rs lines 76-91): pop the front
of `sleeping_fns`; if it has `expires = Some d`, compute
`delta = d - now.elapsed()` for an `Instant` created on the spot (so
`elapsed = 0`), `thread::sleep(delta)` when `delta.as_secs() > 0`, and
push the task at the back of `ready_fns`.  A popped task with
`expires = None` is silently dropped.  `Duration::sub` underflow is a
panic (`Except.error`). -/
def runSleeping (s : SchedState) : Except SchedState SchedState :=
  match s.sleeping with
  | [] => .ok s
  | t :: rest =>
    match t.expires with
    | none => .ok { s with sleeping := rest }
    | some d =>
      match durSub d 0 with
      | none => .error { s with sleeping := rest }
      | some delta =>
        .ok { s with sleeping := rest,
                     ready := s.ready ++ [t],
                     clock := s.clock + (if durAsSecs delta > 0 then delta else 0) }

/-- Result of a (fuelled) run: normal return, a propagated callback
panic carrying the state at unwinding, or fuel exhaustion. -/
inductive RunRes where
  | ok (s : SchedState)
  | panicked (s : SchedState)
  | fuelOut

/-- The `run_active` closure (scheduler.rs lines 93-100): repeatedly pop
the front of `ready_fns` and invoke its callback (the lock is released
before the invocation), until `ready_fns` is empty.  A callback panic
propagates. -/
def runActive : Nat → SchedState → RunRes
  | 0, _ => .fuelOut
  | Nat.succ n, s =>
    match s.ready with
    | [] => .ok s
    | t :: rest =>
      match invokeTask { s with ready := rest } t with
      | .error sp => .panicked sp
      | .ok s1 => runActive n s1

/-- The `run` loop (scheduler.rs lines 102-107):
`while !is_empty("ready") || !is_empty("sleep") {
   if is_empty("ready") { run_sleeping(); } run_active(); }`. -/
def run : Nat → SchedState → RunRes
  | 0, _ => .fuelOut
  | Nat.succ n, s =>
    if !s.ready.isEmpty || !s.sleeping.isEmpty then
      match (if s.ready.isEmpty then runSleeping s else .ok s) with
      | .error sp => .panicked sp
      | .ok s1 =>
        match runActive n s1 with
        | .ok s2 => run n s2
        | .panicked sp => .panicked sp
        | .fuelOut => .fuelOut
    else
      .ok s

/-- Every task in the sleeping queue carries a delay. -/
def sleepOk (s : SchedState) : Prop :=
  ∀ t ∈ s.sleeping, t.expires ≠ none

/-! Lock discipline.  The mutex acquire/release structure of the source
is embedded as event traces read off the statement order of
`scheduler.rs`: a `Mutex::lock` is an acquire, a guard `drop` (or the
guard going out of scope) is a release, and queue operations, the
`thread::sleep` call and the callback invocation are the events in
between. -/

/-- The two locks of the scheduler (scheduler.rs lines 31-32):
`ready_fns` and `sleeping_fns`. -/
inductive LockId where
  | readyLock
  | sleepingLock
deriving DecidableEq

/-- Lock-relevant events, in source statement order. -/
inductive LockEvent where
  | acquire (l : LockId)
  | release (l : LockId)
  | threadSleep
  | invokeCallback
  | queueOp (l : LockId)
deriving DecidableEq

/-- The events of one `run_sleeping` call on the `Some(d)` path with
`delta.as_secs() > 0` (scheduler.rs lines 76-91): lock `sleeping_fns`
(line 77), `pop_front` (line 78), `thread::sleep` (line 83), lock
`ready_fns` (line 85), `push_back` (line 86), drop the ready guard
(line 87), and only then drop the sleeping guard (line 90). -/
def runSleepingEvents : List LockEvent :=
  [.acquire .sleepingLock, .queueOp .sleepingLock, .threadSleep,
   .acquire .readyLock, .queueOp .readyLock, .release .readyLock,
   .release .sleepingLock]

/-- The events of one iteration of the `run_active` drain loop
(scheduler.rs lines 94-98): lock `ready_fns`, `pop_front`, drop the
guard (line 96), then invoke the callback (line 97). -/
def runActiveIterEvents : List LockEvent :=
  [.acquire .readyLock, .queueOp .readyLock, .release .readyLock,
   .invokeCallback]

/-- For each blocking event of a trace (a `thread::sleep` or a callback
invocation), the list of locks held at that moment. -/
def blockingWithLocksHeld : List LockEvent → List LockId → List (List LockId)
  | [], _ => []
  | e :: rest, held =>
    match e with
    | .acquire l => blockingWithLocksHeld rest (l :: held)
    | .release l => blockingWithLocksHeld rest (held.erase l)
    | .queueOp _ => blockingWithLocksHeld rest held
    | .threadSleep => held :: blockingWithLocksHeld rest held
    | .invokeCallback => held :: blockingWithLocksHeld rest held

/-! Basic lemmas about `schedule` folded over a callback's spawn list. -/

/-- Folding `schedule` does not touch the clock. -/
theorem foldl_schedule_clock (ts : List Task) (s : SchedState) :
    (ts.foldl schedule s).clock = s.clock := by
  induction ts generalizing s with
  | nil => rfl
  | cons t ts ih =>
    simp only [List.foldl_cons]
    rw [ih]
    cases h : t.expires <;> simp [schedule, h]

/-- Folding `schedule` does not touch the log. -/
theorem foldl_schedule_log (ts : List Task) (s : SchedState) :
    (ts.foldl schedule s).log = s.log := by
  induction ts generalizing s with
  | nil => rfl
  | cons t ts ih =>
    simp only [List.foldl_cons]
    rw [ih]
    cases h : t.expires <;> simp [schedule, h]

/-- Folding `schedule` appends exactly the delay-less tasks at the back
of the ready queue, in order. -/
theorem foldl_schedule_ready (ts : List Task) (s : SchedState) :
    (ts.foldl schedule s).ready =
      s.ready ++ ts.filter (fun u => u.expires.isNone) := by
  induction ts generalizing s with
  | nil => simp
  | cons t ts ih =>
    simp only [List.foldl_cons, ih]
    cases h : t.expires <;>
      simp [schedule, h, List.filter_cons]

/-- Folding `schedule` appends exactly the delayed tasks at the back of
the sleeping queue, in order. -/
theorem foldl_schedule_sleeping (ts : List Task) (s : SchedState) :
    (ts.foldl schedule s).sleeping =
      s.sleeping ++ ts.filter (fun u => u.expires.isSome) := by
  induction ts generalizing s with
  | nil => simp
  | cons t ts ih =>
    simp only [List.foldl_cons, ih]
    cases h : t.expires <;>
      simp [schedule, h, List.filter_cons]

/-- A successful callback invocation appends the task's id to the log,
its delay-less spawns to the ready queue and its delayed spawns to the
sleeping queue, and leaves the clock alone. -/
theorem invokeTask_ok (s s1 : SchedState) (t : Task)
    (h : invokeTask s t = .ok s1) :
    s1.log = s.log ++ [t.id] ∧
    s1.ready = s.ready ++ t.spawns.filter (fun u => u.expires.isNone) ∧
    s1.sleeping = s.sleeping ++ t.spawns.filter (fun u => u.expires.isSome) ∧
    s1.clock = s.clock := by
  unfold invokeTask at h
  cases hp : t.panics with
  | true => simp [hp] at h
  | false =>
    simp only [hp, if_neg Bool.false_ne_true, Except.ok.injEq] at h
    subst h
    refine ⟨?_, ?_, ?_, ?_⟩ <;>
      simp [foldl_schedule_log, foldl_schedule_ready, foldl_schedule_sleeping,
        foldl_schedule_clock]

/-! Lemmas about the draining loop `runActive`. -/

/-- When `runActive` returns normally, the log has grown by exactly the
ids of the tasks that were in the ready queue, in queue order, followed
by the ids of tasks spawned along the way. -/
theorem runActive_ok_log (n : Nat) (s r : SchedState)
    (h : runActive n s = .ok r) :
    ∃ tail, r.log = s.log ++ s.ready.map Task.id ++ tail := by
  induction n generalizing s with
  | zero => simp [runActive] at h
  | succ n ih =>
    cases hr : s.ready with
    | nil =>
      simp only [runActive, hr, RunRes.ok.injEq] at h
      subst h
      exact ⟨[], by simp [hr]⟩
    | cons t rest =>
      simp only [runActive, hr] at h
      cases hinv : invokeTask { s with ready := rest } t with
      | error sp => rw [hinv] at h; cases h
      | ok s1 =>
        rw [hinv] at h
        obtain ⟨tl, htl⟩ := ih s1 h
        obtain ⟨hlog, hready, -, -⟩ := invokeTask_ok _ _ _ hinv
        refine ⟨(t.spawns.filter (fun u => u.expires.isNone)).map Task.id ++ tl, ?_⟩
        rw [htl, hready, hlog]
        simp [hr]

/-- `runActive` never advances the clock when it returns normally. -/
theorem runActive_ok_clock (n : Nat) (s r : SchedState)
    (h : runActive n s = .ok r) : r.clock = s.clock := by
  induction n generalizing s with
  | zero => simp [runActive] at h
  | succ n ih =>
    cases hr : s.ready with
    | nil =>
      simp only [runActive, hr, RunRes.ok.injEq] at h
      subst h; rfl
    | cons t rest =>
      simp only [runActive, hr] at h
      cases hinv : invokeTask { s with ready := rest } t with
      | error sp => rw [hinv] at h; cases h
      | ok s1 =>
        rw [hinv] at h
        obtain ⟨-, -, -, hclock⟩ := invokeTask_ok _ _ _ hinv
        rw [ih s1 h, hclock]

/-- `runActive` only ever appends to the sleeping queue, and everything
it appends carries a delay (it got there through `schedule`'s `Some`
branch). -/
theorem runActive_ok_sleeping (n : Nat) (s r : SchedState)
    (h : runActive n s = .ok r) :
    ∃ ext, r.sleeping = s.sleeping ++ ext ∧ ∀ u ∈ ext, u.expires ≠ none := by
  induction n generalizing s with
  | zero => simp [runActive] at h
  | succ n ih =>
    cases hr : s.ready with
    | nil =>
      simp only [runActive, hr, RunRes.ok.injEq] at h
      subst h
      exact ⟨[], by simp⟩
    | cons t rest =>
      simp only [runActive, hr] at h
      cases hinv : invokeTask { s with ready := rest } t with
      | error sp => rw [hinv] at h; cases h
      | ok s1 =>
        rw [hinv] at h
        obtain ⟨ext1, hext1, hok1⟩ := ih s1 h
        obtain ⟨-, -, hsleep, -⟩ := invokeTask_ok _ _ _ hinv
        refine ⟨t.spawns.filter (fun u => u.expires.isSome) ++ ext1, ?_, ?_⟩
        · rw [hext1, hsleep]; simp
        · intro u hu
          rcases List.mem_append.mp hu with hu1 | hu2
          · exact Option.isSome_iff_ne_none.mp (List.mem_filter.mp hu1).2
          · exact hok1 u hu2

/-- When `runActive` returns normally, every task that was in the ready
queue has been invoked (its id is in the log), and so has every
delay-less task spawned by such a task's callback. -/
theorem runActive_ok_mem (n : Nat) (s r : SchedState)
    (h : runActive n s = .ok r) :
    ∀ t ∈ s.ready, t.id ∈ r.log ∧
      ∀ u ∈ t.spawns, u.expires = none → u.id ∈ r.log := by
  induction n generalizing s with
  | zero => simp [runActive] at h
  | succ n ih =>
    cases hr : s.ready with
    | nil => simp [hr]
    | cons t0 rest =>
      simp only [runActive, hr] at h
      cases hinv : invokeTask { s with ready := rest } t0 with
      | error sp => rw [hinv] at h; cases h
      | ok s1 =>
        rw [hinv] at h
        obtain ⟨hlog, hready, -, -⟩ := invokeTask_ok _ _ _ hinv
        obtain ⟨tl, htl⟩ := runActive_ok_log n s1 r h
        intro t ht
        have hs1mem : ∀ u ∈ s1.ready, u.id ∈ r.log ∧
            ∀ v ∈ u.spawns, v.expires = none → v.id ∈ r.log := ih s1 h
        rcases List.mem_cons.mp ht with rfl | hmem
        · constructor
          · rw [htl, hlog]
            simp
          · intro u hu hue
            have hufil : u ∈ t.spawns.filter (fun v => v.expires.isNone) :=
              List.mem_filter.mpr ⟨hu, by simp [hue]⟩
            have : u ∈ s1.ready := by
              rw [hready]; exact List.mem_append_right _ hufil
            exact (hs1mem u this).1
        · refine hs1mem t ?_
          rw [hready]
          exact List.mem_append_left _ hmem

/-! Lemmas about the promotion step `runSleeping` and the `run` loop. -/

/-- Exhaustive description of `runSleeping`: empty sleeping queue is a
no-op; a front task without a delay is popped and dropped; a front task
with delay `d` is popped and pushed at the back of ready, the clock
advancing by `d` exactly when `d` is at least one second.  In
particular `runSleeping` never panics: the subtraction
`expires - now.elapsed()` is `d - 0`. -/
theorem runSleeping_cases (s : SchedState) :
    (s.sleeping = [] ∧ runSleeping s = .ok s) ∨
    (∃ t rest, s.sleeping = t :: rest ∧
      ((t.expires = none ∧ runSleeping s = .ok ⟨s.ready, rest, s.clock, s.log⟩) ∨
       (∃ d, t.expires = some d ∧
         runSleeping s =
           .ok ⟨s.ready ++ [t], rest,
                s.clock + (if durAsSecs d > 0 then d else 0), s.log⟩))) := by
  cases hs : s.sleeping with
  | nil => exact Or.inl ⟨rfl, by simp [runSleeping, hs]⟩
  | cons t rest =>
    refine Or.inr ⟨t, rest, rfl, ?_⟩
    cases he : t.expires with
    | none => exact Or.inl ⟨rfl, by simp [runSleeping, hs, he]⟩
    | some d =>
      refine Or.inr ⟨d, rfl, ?_⟩
      simp [runSleeping, hs, he, durSub]

/-- `runSleeping` never changes the log. -/
theorem runSleeping_ok_log (s s1 : SchedState)
    (h : runSleeping s = .ok s1) : s1.log = s.log := by
  rcases runSleeping_cases s with ⟨-, he⟩ | ⟨t, rest, -, ⟨-, he⟩ | ⟨d, -, he⟩⟩ <;>
    rw [he] at h <;> cases h <;> rfl

/-- When `run` returns normally, the log has grown by the ids of the
initial ready queue, in order, followed by the ids of every later
invocation. -/
theorem run_ok_log (n : Nat) (s r : SchedState) (h : run n s = .ok r) :
    ∃ tail, r.log = s.log ++ s.ready.map Task.id ++ tail := by
  induction n generalizing s with
  | zero => simp [run] at h
  | succ n ih =>
    simp only [run] at h
    by_cases hc : (!s.ready.isEmpty || !s.sleeping.isEmpty) = true
    · rw [if_pos hc] at h
      cases h1 : (if s.ready.isEmpty then runSleeping s else .ok s) with
      | error sp => simp [h1] at h
      | ok s1 =>
        simp only [h1] at h
        cases hact : runActive n s1 with
        | panicked sp => simp [hact] at h
        | fuelOut => simp [hact] at h
        | ok s2 =>
          simp only [hact] at h
          obtain ⟨tl, htl⟩ := ih s2 h
          obtain ⟨tl2, htl2⟩ := runActive_ok_log n s1 s2 hact
          by_cases hre : s.ready.isEmpty = true
          · rw [if_pos hre] at h1
            have hlog1 : s1.log = s.log := runSleeping_ok_log s s1 h1
            have hempty : s.ready = [] := List.isEmpty_iff.mp hre
            refine ⟨s1.ready.map Task.id ++ tl2 ++ s2.ready.map Task.id ++ tl, ?_⟩
            rw [htl, htl2, hlog1, hempty]
            simp
          · rw [if_neg hre] at h1
            cases h1
            refine ⟨tl2 ++ s2.ready.map Task.id ++ tl, ?_⟩
            rw [htl, htl2]
            simp
    · rw [if_neg hc] at h
      simp only [Bool.or_eq_true, Bool.not_eq_true', not_or, Bool.not_eq_false] at hc
      have hempty : s.ready = [] := List.isEmpty_iff.mp hc.1
      cases h
      exact ⟨[], by simp [hempty]⟩

/-- When `run` returns normally, both queues are empty. -/
theorem run_ok_state (n : Nat) (s r : SchedState) (h : run n s = .ok r) :
    r.ready = [] ∧ r.sleeping = [] := by
  induction n generalizing s with
  | zero => simp [run] at h
  | succ n ih =>
    simp only [run] at h
    by_cases hc : (!s.ready.isEmpty || !s.sleeping.isEmpty) = true
    · rw [if_pos hc] at h
      cases h1 : (if s.ready.isEmpty then runSleeping s else .ok s) with
      | error sp => simp [h1] at h
      | ok s1 =>
        simp only [h1] at h
        cases hact : runActive n s1 with
        | panicked sp => simp [hact] at h
        | fuelOut => simp [hact] at h
        | ok s2 =>
          simp only [hact] at h
          exact ih s2 h
    · rw [if_neg hc] at h
      simp only [Bool.or_eq_true, Bool.not_eq_true', not_or, Bool.not_eq_false] at hc
      have h1 := List.isEmpty_iff.mp hc.1
      have h2 := List.isEmpty_iff.mp hc.2
      cases h
      exact ⟨h1, h2⟩

/-- On an idle state (both queues empty) `run` returns at once, with the
state untouched. -/
theorem run_idle (m : Nat) (r : SchedState) (h1 : r.ready = [])
    (h2 : r.sleeping = []) : run (m + 1) r = .ok r := by
  simp [run, h1, h2]

/-- When `run` returns normally, every task in the ready queue gets
invoked before the return, and so does every delay-less task spawned by
such a task's callback. -/
theorem run_ok_mem (n : Nat) (s r : SchedState) (h : run n s = .ok r) :
    ∀ t ∈ s.ready, t.id ∈ r.log ∧
      ∀ u ∈ t.spawns, u.expires = none → u.id ∈ r.log := by
  cases n with
  | zero => simp [run] at h
  | succ n =>
    simp only [run] at h
    by_cases hc : (!s.ready.isEmpty || !s.sleeping.isEmpty) = true
    · rw [if_pos hc] at h
      cases h1 : (if s.ready.isEmpty then runSleeping s else .ok s) with
      | error sp => simp [h1] at h
      | ok s1 =>
        simp only [h1] at h
        cases hact : runActive n s1 with
        | panicked sp => simp [hact] at h
        | fuelOut => simp [hact] at h
        | ok s2 =>
          simp only [hact] at h
          intro t ht
          have hre : s.ready.isEmpty = false := by
            cases hr : s.ready with
            | nil => rw [hr] at ht; cases ht
            | cons a l => simp [hr]
          rw [if_neg (by simp [hre])] at h1
          cases h1
          have hmem := runActive_ok_mem n s s2 hact t ht
          obtain ⟨tl, htl⟩ := run_ok_log n s2 r h
          refine ⟨?_, fun u hu hue => ?_⟩
          · rw [htl]
            exact List.mem_append_left _ (List.mem_append_left _ hmem.1)
          · rw [htl]
            exact List.mem_append_left _
              (List.mem_append_left _ (hmem.2 u hu hue))
    · rw [if_neg hc] at h
      simp only [Bool.or_eq_true, Bool.not_eq_true', not_or, Bool.not_eq_false] at hc
      intro t ht
      simp [List.isEmpty_iff.mp hc.1] at ht

/-- When `run` returns normally and every sleeping task carries a delay,
every task in either queue gets invoked before the return: no task is
dropped on a normal run. -/
theorem run_ok_conserve (n : Nat) (s r : SchedState) (hok : sleepOk s)
    (h : run n s = .ok r) :
    ∀ t, t ∈ s.ready ∨ t ∈ s.sleeping → t.id ∈ r.log := by
  induction n generalizing s with
  | zero => simp [run] at h
  | succ n ih =>
    simp only [run] at h
    by_cases hc : (!s.ready.isEmpty || !s.sleeping.isEmpty) = true
    · rw [if_pos hc] at h
      by_cases hre : s.ready.isEmpty = true
      · rw [if_pos hre] at h
        have hready : s.ready = [] := List.isEmpty_iff.mp hre
        rcases runSleeping_cases s with ⟨hnil, heq⟩ | ⟨t0, rest, hs, hcase⟩
        · exfalso
          rw [hre, hnil] at hc
          simp at hc
        · rcases hcase with ⟨he0, heq⟩ | ⟨d, he0, heq⟩
          · exact absurd he0 (hok t0 (by rw [hs]; exact List.mem_cons_self t0 rest))
          · set s1 : SchedState :=
              ⟨s.ready ++ [t0], rest,
               s.clock + (if durAsSecs d > 0 then d else 0), s.log⟩ with hs1
            simp only [heq] at h
            cases hact : runActive n s1 with
            | panicked sp => simp [hact] at h
            | fuelOut => simp [hact] at h
            | ok s2 =>
              simp only [hact] at h
              obtain ⟨ext, hext, hextok⟩ := runActive_ok_sleeping n s1 s2 hact
              have hok2 : sleepOk s2 := by
                intro u hu
                rw [hext] at hu
                rcases List.mem_append.mp hu with hu1 | hu2
                · exact hok u (by rw [hs]; exact List.mem_cons_of_mem t0 hu1)
                · exact hextok u hu2
              intro t hmem
              rcases hmem with hmemr | hmems
              · rw [hready] at hmemr; cases hmemr
              · rw [hs] at hmems
                rcases List.mem_cons.mp hmems with rfl | hmem2
                · have h1mem : t ∈ s1.ready := by simp
                  have hid := (runActive_ok_mem n s1 s2 hact t h1mem).1
                  obtain ⟨tl, htl⟩ := run_ok_log n s2 r h
                  rw [htl]
                  exact List.mem_append_left _ (List.mem_append_left _ hid)
                · refine ih s2 hok2 h t (Or.inr ?_)
                  rw [hext]
                  exact List.mem_append_left _ hmem2
      · cases h1 : (if s.ready.isEmpty then runSleeping s else .ok s) with
        | error sp => simp [h1] at h
        | ok s1 =>
          simp only [h1] at h
          rw [if_neg hre] at h1
          cases h1
          cases hact : runActive n s with
          | panicked sp => simp [hact] at h
          | fuelOut => simp [hact] at h
          | ok s2 =>
            simp only [hact] at h
            obtain ⟨ext, hext, hextok⟩ := runActive_ok_sleeping n s s2 hact
            have hok2 : sleepOk s2 := by
              intro u hu
              rw [hext] at hu
              rcases List.mem_append.mp hu with hu1 | hu2
              · exact hok u hu1
              · exact hextok u hu2
            intro t hmem
            rcases hmem with hmemr | hmems
            · have hid := (runActive_ok_mem n s s2 hact t hmemr).1
              obtain ⟨tl, htl⟩ := run_ok_log n s2 r h
              rw [htl]
              exact List.mem_append_left _ (List.mem_append_left _ hid)
            · refine ih s2 hok2 h t (Or.inr ?_)
              rw [hext]
              exact List.mem_append_left _ hmems
    · rw [if_neg hc] at h
      simp only [Bool.or_eq_true, Bool.not_eq_true', not_or, Bool.not_eq_false] at hc
      intro t hmem
      rcases hmem with hmemr | hmems
      · simp [List.isEmpty_iff.mp hc.1] at hmemr
      · simp [List.isEmpty_iff.mp hc.2] at hmems

/-! The claims. -/

/-- C1: the claim says `schedule` keeps the sleeping queue sorted by
absolute expiry so that of two sleeping tasks with expiries `e1 < e2`
the first is promoted strictly first.  The code instead appends unsorted
(`push_back`, with a `@todo: sort before pushing` comment): submitting
task 1 (delay 3s) then task 2 (delay 1s) leaves the sleeping queue as
`[task 1, task 2]`, and `run` promotes and runs task 1 — the
later-expiring task — first (log `[1, 2]`, not `[2, 1]`). -/
theorem claim1_unsorted_sleeping_insert :
    (schedule (schedule ⟨[], [], 0, []⟩ (Task.mk 1 (some 3000000000) [] false))
        (Task.mk 2 (some 1000000000) [] false)).sleeping =
      [Task.mk 1 (some 3000000000) [] false,
       Task.mk 2 (some 1000000000) [] false] ∧
    run 10 (schedule (schedule ⟨[], [], 0, []⟩ (Task.mk 1 (some 3000000000) [] false))
        (Task.mk 2 (some 1000000000) [] false)) =
      .ok ⟨[], [], 4000000000, [1, 2]⟩ := ⟨rfl, rfl⟩

/-- C2: the claim says the WAITING step blocks for
`remaining = expiry - now` (expiry = submission instant + delay) exactly
when `remaining > 0`.  The code stores no submission instant and
computes `delta = expires - now.elapsed()` for an `Instant` created on
the same line (elapsed = 0), so it always sleeps the full stored delay:
with tasks of delay 2s and 3s submitted at time 0, the second WAITING
step (at now = 2s, remaining 1s) sleeps 3s, ending at clock 5s instead
of 3s.  And it sleeps only when `delta.as_secs() > 0`: a task of delay
0.5s (remaining > 0) gets no sleep at all (clock stays 0). -/
theorem claim2_waiting_step_timing :
    run 10 (schedule (schedule ⟨[], [], 0, []⟩ (Task.mk 1 (some 2000000000) [] false))
        (Task.mk 2 (some 3000000000) [] false)) =
      .ok ⟨[], [], 5000000000, [1, 2]⟩ ∧
    run 10 (schedule ⟨[], [], 0, []⟩ (Task.mk 1 (some 500000000) [] false)) =
      .ok ⟨[], [], 0, [1]⟩ := ⟨rfl, rfl⟩

/-- C3: `run` returns exactly when the ready and sleeping queues are
both empty: whenever it returns normally both queues of the final state
are empty, and from such an idle state it returns at once (for any
positive fuel) without touching the state. -/
theorem claim3_run_returns_exactly_when_idle (n : Nat) (s r : SchedState)
    (h : run n s = .ok r) :
    r.ready = [] ∧ r.sleeping = [] ∧ ∀ m, run (m + 1) r = .ok r := by
  obtain ⟨h1, h2⟩ := run_ok_state n s r h
  exact ⟨h1, h2, fun m => run_idle m r h1 h2⟩

theorem claim3_witness :
    run 4 ⟨[Task.mk 1 none [] false], [], 0, []⟩ = .ok ⟨[], [], 0, [1]⟩ ∧
    ((⟨[], [], 0, [1]⟩ : SchedState).ready = [] ∧
     (⟨[], [], 0, [1]⟩ : SchedState).sleeping = [] ∧
     ∀ m, run (m + 1) (⟨[], [], 0, [1]⟩ : SchedState) = .ok ⟨[], [], 0, [1]⟩) :=
  ⟨rfl, claim3_run_returns_exactly_when_idle 4
    ⟨[Task.mk 1 none [] false], [], 0, []⟩ ⟨[], [], 0, [1]⟩ rfl⟩

/-- C4: delay-less tasks submitted before `run` are invoked in exactly
their submission order: when `run` over the state obtained by submitting
`ts` (all delay-less) into a fresh scheduler returns, the log starts
with the ids of `ts` in submission order (followed only by the ids of
tasks the callbacks themselves spawned). -/
theorem claim4_fifo_order (ts : List Task) (c n : Nat) (r : SchedState)
    (hts : ∀ t ∈ ts, t.expires = none)
    (h : run n (ts.foldl schedule ⟨[], [], c, []⟩) = .ok r) :
    ∃ tail, r.log = ts.map Task.id ++ tail := by
  obtain ⟨tl, htl⟩ := run_ok_log n _ r h
  refine ⟨tl, ?_⟩
  rw [htl, foldl_schedule_log, foldl_schedule_ready]
  have hfil : ts.filter (fun u => u.expires.isNone) = ts :=
    List.filter_eq_self.mpr (fun t ht => by simp [hts t ht])
  simp [hfil]

theorem claim4_witness :
    (∀ t ∈ [Task.mk 1 none [] false, Task.mk 2 none [] false],
      Task.expires t = none) ∧
    ∃ tail, (⟨[], [], 0, [1, 2]⟩ : SchedState).log =
      [Task.mk 1 none [] false, Task.mk 2 none [] false].map Task.id ++ tail :=
  ⟨by decide,
   claim4_fifo_order [Task.mk 1 none [] false, Task.mk 2 none [] false] 0 5
     ⟨[], [], 0, [1, 2]⟩ (by decide) rfl⟩

/-- C5: a delay-less task `t2` scheduled by a callback running inside
`run` (here: `t2` is among the spawns of a task `t` in the ready queue)
is itself invoked before `run` returns, and `schedule` appends it after
the current contents of the ready queue. -/
theorem claim5_resubmitted_task_runs (n : Nat) (s r : SchedState) (t t2 : Task)
    (ht : t ∈ s.ready) (h2 : t2 ∈ t.spawns) (h2e : t2.expires = none)
    (h : run n s = .ok r) :
    t2.id ∈ r.log ∧ ∀ s', (schedule s' t2).ready = s'.ready ++ [t2] := by
  refine ⟨(run_ok_mem n s r h t ht).2 t2 h2 h2e, fun s' => ?_⟩
  simp [schedule, h2e]

theorem claim5_witness :
    (Task.mk 2 none [] false).id ∈
      (⟨[], [], 0, [1, 2]⟩ : SchedState).log ∧
    ∀ s', (schedule s' (Task.mk 2 none [] false)).ready =
      s'.ready ++ [Task.mk 2 none [] false] :=
  claim5_resubmitted_task_runs 5
    ⟨[Task.mk 1 none [Task.mk 2 none [] false] false], [], 0, []⟩
    ⟨[], [], 0, [1, 2]⟩
    (Task.mk 1 none [Task.mk 2 none [] false] false)
    (Task.mk 2 none [] false)
    (List.Mem.head _) (List.Mem.head _) rfl rfl

/-- C6: `schedule` accepts a zero-delay task (into the sleeping queue,
`Some` branch), and once the ready queue is empty such a task is
promoted immediately — the clock does not advance — and its callback
runs, the whole path returning normally with no panic. -/
theorem claim6_zero_delay_immediate (n c i : Nat) (l : List Nat) :
    (∀ s', (schedule s' (Task.mk i (some 0) [] false)).sleeping =
      s'.sleeping ++ [Task.mk i (some 0) [] false]) ∧
    run (n + 3) ⟨[], [Task.mk i (some 0) [] false], c, l⟩ =
      .ok ⟨[], [], c, l ++ [i]⟩ := by
  constructor
  · intro s'
    simp [schedule, Task.expires]
  · simp [run, runSleeping, runActive, invokeTask, durSub, durAsSecs,
      Task.expires, Task.id, Task.spawns, Task.panics]

/-- C7: `run` never blocks on a sleeping task's expiry while the ready
queue is non-empty: draining the ready queue (`runActive`) never
advances the clock, and a loop step with a non-empty ready queue is
exactly that draining followed by the rest of the loop — the promotion
(and its sleep) is reached only once ready is empty.  In Scenario B
(task 1 with delay 2s, then task 2 with no delay) task 2's callback
runs before task 1's: the final log is `[2, 1]`. -/
theorem claim7_drain_before_wait (n : Nat) (s r : SchedState)
    (h : runActive n s = .ok r) :
    r.clock = s.clock ∧
    (s.ready ≠ [] → run (n + 1) s = run n r) ∧
    run 12 (schedule (schedule ⟨[], [], 0, []⟩ (Task.mk 1 (some 2000000000) [] false))
        (Task.mk 2 none [] false)) =
      .ok ⟨[], [], 2000000000, [2, 1]⟩ := by
  refine ⟨runActive_ok_clock n s r h, fun hne => ?_, by rfl⟩
  have hre : s.ready.isEmpty = false := by
    cases hr : s.ready with
    | nil => exact absurd hr hne
    | cons a l => simp
  simp [run, hre, h]

theorem claim7_witness :
    (⟨[], [], 7, [9, 5]⟩ : SchedState).clock =
      (⟨[Task.mk 5 none [] false], [], 7, [9]⟩ : SchedState).clock ∧
    ((⟨[Task.mk 5 none [] false], [], 7, [9]⟩ : SchedState).ready ≠ [] →
      run 3 ⟨[Task.mk 5 none [] false], [], 7, [9]⟩ =
        run 2 ⟨[], [], 7, [9, 5]⟩) ∧
    run 12 (schedule (schedule ⟨[], [], 0, []⟩ (Task.mk 1 (some 2000000000) [] false))
        (Task.mk 2 none [] false)) =
      .ok ⟨[], [], 2000000000, [2, 1]⟩ :=
  claim7_drain_before_wait 2 ⟨[Task.mk 5 none [] false], [], 7, [9]⟩
    ⟨[], [], 7, [9, 5]⟩ rfl

/-- C8: a panicking callback is not caught: with a panicking task at the
front of the ready queue, `run` propagates the panic, the loop
terminates, and at the moment of unwinding the collections hold exactly
the remaining tasks — the ready queue lost only the failed task, the
sleeping queue is untouched — and no further callback is invoked (the
log grew only by the failed task's own invocation). -/
theorem claim8_panic_propagates (n i c : Nat) (e : Option Nat)
    (rest slp : List Task) (l : List Nat) :
    run (n + 2) ⟨Task.mk i e [] true :: rest, slp, c, l⟩ =
      .panicked ⟨rest, slp, c, l ++ [i]⟩ := by
  simp [run, runActive, invokeTask, Task.id, Task.spawns, Task.panics]

/-- C9: the claim says every lock is released before the scheduler
blocks in `thread::sleep` or invokes a callback.  The code violates it
in `run_sleeping`: the `sleeping_fns` guard taken on line 77 is dropped
only on line 90, so the one `thread::sleep` of the system (line 83)
runs with the sleeping lock held (first conjunct).  The `run_active`
drain loop does follow the discipline: the callback is invoked with no
lock held (second conjunct). -/
theorem claim9_lock_held_across_sleep :
    blockingWithLocksHeld runSleepingEvents [] = [[LockId.sleepingLock]] ∧
    blockingWithLocksHeld runActiveIterEvents [] = [[]] := ⟨rfl, rfl⟩

/-- C10: every task in the sleeping queue carries a delay, an invariant
preserved by `schedule` (only its `Some` branch inserts into sleeping);
consequently the branch of `run_sleeping` that would pop a delay-less
sleeping task and silently discard it is unreachable — under the
invariant a non-empty sleeping queue always yields a promotion of the
front task into ready — and on a normal `run` every task in either
queue is invoked (no task is dropped unrun). -/
theorem claim10_sleeping_invariant (s : SchedState) (h : sleepOk s) :
    (∀ t, sleepOk (schedule s t)) ∧
    (∀ t rest, s.sleeping = t :: rest →
      ∃ d, t.expires = some d ∧
        runSleeping s =
          .ok ⟨s.ready ++ [t], rest,
               s.clock + (if durAsSecs d > 0 then d else 0), s.log⟩) ∧
    (∀ n r, run n s = .ok r → ∀ t, t ∈ s.ready ∨ t ∈ s.sleeping →
      t.id ∈ r.log) := by
  refine ⟨?_, ?_, fun n r hr => run_ok_conserve n s r h hr⟩
  · intro t u hu
    cases he : t.expires with
    | none =>
      simp only [schedule, he] at hu
      exact h u hu
    | some d =>
      simp only [schedule, he] at hu
      rcases List.mem_append.mp hu with hu1 | hu2
      · exact h u hu1
      · rcases List.mem_singleton.mp hu2 with rfl
        simp [he]
  · intro t rest hs
    rcases runSleeping_cases s with ⟨hnil, -⟩ | ⟨t', rest', hs', hcase⟩
    · rw [hs] at hnil; cases hnil
    · rw [hs] at hs'
      injection hs' with h1 h2
      subst h1; subst h2
      rcases hcase with ⟨he0, -⟩ | ⟨d, he0, heq⟩
      · exact absurd he0 (h t (by rw [hs]; exact List.mem_cons_self t rest))
      · exact ⟨d, he0, heq⟩

theorem claim10_witness :
    sleepOk ⟨[], [Task.mk 3 (some 0) [] false], 0, []⟩ ∧
    ((∀ t, sleepOk (schedule ⟨[], [Task.mk 3 (some 0) [] false], 0, []⟩ t)) ∧
     (∀ t rest,
        (⟨[], [Task.mk 3 (some 0) [] false], 0, []⟩ : SchedState).sleeping =
          t :: rest →
        ∃ d, t.expires = some d ∧
          runSleeping ⟨[], [Task.mk 3 (some 0) [] false], 0, []⟩ =
            .ok ⟨[] ++ [t], rest, 0 + (if durAsSecs d > 0 then d else 0), []⟩) ∧
     (∀ n r, run n ⟨[], [Task.mk 3 (some 0) [] false], 0, []⟩ = .ok r →
        ∀ t, t ∈ ([] : List Task) ∨ t ∈ [Task.mk 3 (some 0) [] false] →
          t.id ∈ r.log)) := by
  have h : sleepOk ⟨[], [Task.mk 3 (some 0) [] false], 0, []⟩ := by
    intro t ht
    rcases List.mem_singleton.mp ht with rfl
    simp [Task.expires]
  exact ⟨h, claim10_sleeping_invariant _ h⟩

end Revent
